import Mathlib

/-!
Shallow embedding of the BrieflyPlanningPoker voting core.

The reference voting logic lives in the repository file that defines the
prisma client wrapper: the functions `vote`, `registerVoteAndUpdate`,
`calcFinalPoints` and `validatePoints`.  JavaScript numbers are modelled
as rationals (ℚ); `Number.isInteger p` becomes `p.den = 1`; JavaScript
truthiness of a number becomes `≠ 0`; the `Map` built by `calcFinalPoints`
is an insertion-ordered association list; `Array.prototype.sort` with the
comparator `([a, b], [c, d]) => d - b` is a stable sort by descending
frequency, modelled by a stable insertion sort.
-/

namespace Briefly

/-- One vote row: voter email, round number, points. -/
structure Vote where
  email : String
  round : ℤ
  points : ℚ
deriving DecidableEq, Repr

/-- Task state as seen and mutated by the reference `vote` flow.
`squad` is the list of member emails, `votes` the recorded vote rows. -/
structure Task where
  currentRound : ℤ
  maxRounds : ℤ
  percentual : ℚ
  points : Option ℚ
  finished : Bool
  active : Bool
  squad : List String
  votes : List Vote
deriving DecidableEq, Repr

/-- Failure reasons of the vote validation chain, one per thrown error. -/
inductive RejectReason where
  | invalidPoints
  | taskNotVotable
  | notSquadMember
  | duplicateVote
deriving DecidableEq, Repr

/-- JS `hist.set(p, (hist.get(p) ?? 0) + 1)` on an insertion-ordered map:
bump the entry for `p` in place, or append a fresh `(p, 1)` entry. -/
def histInsert (p : ℚ) : List (ℚ × ℕ) → List (ℚ × ℕ)
  | [] => [(p, 1)]
  | (q, c) :: t => if q = p then (q, c + 1) :: t else (q, c) :: histInsert p t

/-- The frequency histogram of `calcFinalPoints`, entries in insertion order. -/
def buildHist (votes : List ℚ) : List (ℚ × ℕ) :=
  votes.foldl (fun h p => histInsert p h) []

/-- Insert an entry before the first strictly less frequent one.  Folded over
the list this realises the unique stable sort by descending frequency, which
is what the JS comparator `([a, b], [c, d]) => d - b` produces. -/
def insertByFreq (e : ℚ × ℕ) : List (ℚ × ℕ) → List (ℚ × ℕ)
  | [] => [e]
  | f :: fs => if e.2 < f.2 then f :: insertByFreq e fs else e :: f :: fs

/-- Stable sort by descending frequency (named orderedHist in the code). -/
def sortByFreqDesc : List (ℚ × ℕ) → List (ℚ × ℕ)
  | [] => []
  | e :: es => insertByFreq e (sortByFreqDesc es)

/-- The reference `calcFinalPoints(votes, currentRound, maxRounds,
minPercentual)`.  `none` models the `undefined` return (advance).  The first
branch embeds `orderedHist.some(([_, freq]) => minFreq)`: the callback
returns the number `minFreq` itself, so `some` tests its truthiness
(`minFreq ≠ 0`) once per entry, never comparing `freq`. -/
def calcFinalPoints (votes : List ℚ) (currentRound maxRounds : ℤ)
    (minPercentual : ℚ) : Option ℚ :=
  let minFreq : ℚ := (votes.length : ℚ) * minPercentual
  let orderedHist := sortByFreqDesc (buildHist votes)
  if orderedHist.any (fun _ => decide (minFreq ≠ 0)) then
    orderedHist.head?.map Prod.fst
  else if currentRound = maxRounds then
    orderedHist.head?.map Prod.fst
  else
    none

/-- The reference `validatePoints` acceptance condition:
`Number.isInteger(points) && points >= 0`. -/
def validPoints (p : ℚ) : Prop := p.den = 1 ∧ 0 ≤ p

instance (p : ℚ) : Decidable (validPoints p) := by
  unfold validPoints; infer_instance

/-- The reference `registerVoteAndUpdate(id, vote, points?, nextRound)`.
`extraArgs = points ? {points, active: false, finished: true} : {}` keys off
JS truthiness, so `some 0` behaves like `none`; `currentRound` is
incremented by `nextRound ? 1 : 0`; the vote row is appended. -/
def registerVoteAndUpdate (t : Task) (v : Vote) (points : Option ℚ)
    (nextRound : Bool) : Task :=
  let truthy : Bool := match points with
    | some p => decide (p ≠ 0)
    | none => false
  { t with
    votes := t.votes ++ [v]
    currentRound := t.currentRound + (if nextRound then 1 else 0)
    points := if truthy then points else t.points
    active := if truthy then false else t.active
    finished := if truthy then true else t.finished }

/-- The reference `vote(taskId, email, points)` flow: validate, record, and
when `task.votes.length == task.squad.users.length - 1` run
`calcFinalPoints` over the votes of this round plus the new one.  Both calls to
`registerVoteAndUpdate` use `nextRound = true` (the second one through the
parameter default). -/
def vote (t : Task) (email : String) (points : ℚ) :
    Except RejectReason Task :=
  if ¬ validPoints points then
    .error .invalidPoints
  else if ¬ t.active then
    .error .taskNotVotable
  else if ∀ m ∈ t.squad, m ≠ email then
    .error .notSquadMember
  else
    let round := t.currentRound
    if ∃ v ∈ t.votes, v.round = round ∧ v.email = email then
      .error .duplicateVote
    else
      let userVote : Vote := ⟨email, round, points⟩
      let roundVotes := t.votes.filter (fun v => decide (v.round = round))
        ++ [userVote]
      if (t.votes.length : ℤ) ≠ (t.squad.length : ℤ) - 1 then
        .ok (registerVoteAndUpdate t userVote none true)
      else
        let finalPoints := calcFinalPoints (roundVotes.map Vote.points)
          round t.maxRounds t.percentual
        .ok (registerVoteAndUpdate t userVote finalPoints true)

/-- Lookup view of the association-list histogram. -/
def histFreq (h : List (ℚ × ℕ)) (q : ℚ) : ℕ :=
  ((h.find? (fun e => decide (e.1 = q))).map Prod.snd).getD 0

/-- The data-model invariant: at most one vote row per (voter, round). -/
def votesConsistent (t : Task) : Prop :=
  t.votes.Pairwise (fun a b => ¬ (a.email = b.email ∧ a.round = b.round))

/-- A fresh two-member task in round 1 of 2, no votes yet. -/
def twoMemberTask : Task :=
  { currentRound := 1, maxRounds := 2, percentual := 3/5, points := none,
    finished := false, active := true, squad := ["a", "b"], votes := [] }

/-- State after member `a` votes 3 on `twoMemberTask`: the vote is recorded
in round 1 and `currentRound` has been incremented to 2. -/
def twoMemberAfterA : Task :=
  { twoMemberTask with votes := [⟨"a", 1, 3⟩], currentRound := 2 }

/-- State after member `b` then votes 5: the stale round-1 vote made the
completion count match, so the task finalized on the lone round-2 vote of `b`. -/
def twoMemberAfterB : Task :=
  { twoMemberTask with
    votes := [⟨"a", 1, 3⟩, ⟨"b", 2, 5⟩]
    currentRound := 3
    points := some 5
    finished := true
    active := false }

/-- A task that is simultaneously `finished` and `active`. -/
def finishedActiveTask : Task :=
  { currentRound := 1, maxRounds := 2, percentual := 3/5, points := none,
    finished := true, active := true, squad := ["a", "b"], votes := [] }

/-- Result of voting on `finishedActiveTask`: the vote goes through. -/
def finishedActiveAfterVote : Task :=
  { finishedActiveTask with votes := [⟨"a", 1, 1⟩], currentRound := 2 }

/-- A single-member task that is `finished` yet still `active`. -/
def finishedActiveSolo : Task :=
  { currentRound := 1, maxRounds := 3, percentual := 1/2, points := none,
    finished := true, active := true, squad := ["x"], votes := [] }

/-- Result of voting on `finishedActiveSolo`: the lone vote completes the
round and the task finalizes instead of being rejected. -/
def finishedActiveSoloRes : Task :=
  { finishedActiveSolo with
    votes := [⟨"x", 1, 2⟩]
    currentRound := 2
    points := some 2
    active := false }

/-- A single-member task with `maxRounds = 1`, round 1, no votes. -/
def soloMaxOneTask : Task :=
  { currentRound := 1, maxRounds := 1, percentual := 3/5, points := none,
    finished := false, active := true, squad := ["a"], votes := [] }

/-- Result of the lone vote on `soloMaxOneTask`: finalized, and
`currentRound` was incremented to 2, past `maxRounds = 1`. -/
def soloMaxOneRes : Task :=
  { soloMaxOneTask with
    votes := [⟨"a", 1, 5⟩]
    currentRound := 2
    points := some 5
    finished := true
    active := false }

/-- A small active task used to exercise the validation chain. -/
def soloTask : Task :=
  { currentRound := 1, maxRounds := 2, percentual := 1/2, points := none,
    finished := false, active := true, squad := ["w"], votes := [] }

/-- `soloTask` with `active = false`. -/
def soloInactiveTask : Task := { soloTask with active := false }

/-- `soloTask` with a vote by `w` already recorded in the current round. -/
def soloDupTask : Task := { soloTask with votes := [⟨"w", 1, 4⟩] }

/-- A two-member task whose round is complete once `b` votes, with every
vote equal to 0. -/
def zeroRoundTask : Task :=
  { currentRound := 1, maxRounds := 2, percentual := 3/5, points := none,
    finished := false, active := true, squad := ["a", "b"],
    votes := [⟨"a", 1, 0⟩] }

/-- Result of `b` voting 0 on `zeroRoundTask`: the consensus value 0 is
falsy, so nothing is finalized and the round merely advances. -/
def zeroRoundRes : Task :=
  { zeroRoundTask with
    votes := [⟨"a", 1, 0⟩, ⟨"b", 1, 0⟩]
    currentRound := 2 }

/-- One row of the squads query feeding `fromSquadDb`; `updatedAt` (a JS
`Date`) is modelled as an integer timestamp. -/
structure LoadedSquadsDb where
  squadId : String
  squad : String
  currentMaxRounds : ℤ
  currentPercentual : ℚ
  userId : String
  user : String
  updatedAt : ℤ
deriving DecidableEq, Repr

/-- One member entry produced by `fromSquadDb`.  The source also reads
`res.email`, a field absent from the row type, so the produced value is
always `undefined` and is omitted here. -/
structure SquadMember where
  id : String
  name : String
deriving DecidableEq, Repr

/-- One aggregated squad entry produced by `fromSquadDb`. -/
structure LoadedSquad where
  id : String
  squad : String
  members : List SquadMember
  currentMaxRounds : ℤ
  currentPercentual : ℚ
  updatedAt : ℤ
deriving DecidableEq, Repr

/-- The `for (const squad of squads)` loop of `fromSquadDb`: skip names
already present in the accumulator (the `findIndex !== -1` test), otherwise
push one entry built from all rows bearing the name.  The source indexes
`resDb[0]` on the filtered rows, which are never empty on the calls the
function makes; the empty case is mapped to a skip. -/
def fromSquadDbGo (squadsDb : List LoadedSquadsDb) :
    List String → List LoadedSquad → List LoadedSquad
  | [], acc => acc
  | s :: rest, acc =>
    if acc.any (fun r => decide (r.squad = s)) then
      fromSquadDbGo squadsDb rest acc
    else
      match squadsDb.filter (fun r => decide (r.squad = s)) with
      | [] => fromSquadDbGo squadsDb rest acc
      | r0 :: rs =>
        fromSquadDbGo squadsDb rest (acc ++
          [{ id := r0.squadId, squad := r0.squad,
             members := (r0 :: rs).map (fun r => ⟨r.userId, r.user⟩),
             currentMaxRounds := r0.currentMaxRounds,
             currentPercentual := r0.currentPercentual,
             updatedAt := r0.updatedAt }])

/-- The reference `fromSquadDb`: aggregate rows into one entry per squad. -/
def fromSquadDb (squadsDb : List LoadedSquadsDb) : List LoadedSquad :=
  fromSquadDbGo squadsDb (squadsDb.map (fun r => r.squad)) []

/-- Modelled from the spec side of the claim: the distinct names of a list
in order of first appearance, given the names already seen. -/
def firstOccurrences (seen : List String) : List String → List String
  | [] => []
  | s :: rest =>
    if s ∈ seen then firstOccurrences seen rest
    else s :: firstOccurrences (s :: seen) rest

/-- Modelled from the spec side of the claim: the single entry for squad
name `s`, taking `id`, `currentMaxRounds`, `currentPercentual` and
`updatedAt` from the first row bearing the name and one member per row. -/
def squadEntry (squadsDb : List LoadedSquadsDb) (s : String) :
    Option LoadedSquad :=
  match squadsDb.filter (fun r => decide (r.squad = s)) with
  | [] => none
  | r0 :: rs =>
    some { id := r0.squadId, squad := r0.squad,
           members := (r0 :: rs).map (fun r => ⟨r.userId, r.user⟩),
           currentMaxRounds := r0.currentMaxRounds,
           currentPercentual := r0.currentPercentual,
           updatedAt := r0.updatedAt }

/-- Three sample rows covering two squads, the first one split in two. -/
def sampleDb : List LoadedSquadsDb :=
  [{ squadId := "q1", squad := "s1", currentMaxRounds := 3,
     currentPercentual := 1, userId := "u1", user := "alice",
     updatedAt := 0 },
   { squadId := "q2", squad := "s2", currentMaxRounds := 5,
     currentPercentual := 1, userId := "u2", user := "bo", updatedAt := 1 },
   { squadId := "q1", squad := "s1", currentMaxRounds := 3,
     currentPercentual := 1, userId := "u3", user := "carol",
     updatedAt := 0 }]

/-- The aggregated entry for squad `s1` of `sampleDb`. -/
def sampleS1 : LoadedSquad :=
  { id := "q1", squad := "s1",
    members := [⟨"u1", "alice"⟩, ⟨"u3", "carol"⟩],
    currentMaxRounds := 3, currentPercentual := 1, updatedAt := 0 }

theorem histFreq_nil (q : ℚ) : histFreq [] q = 0 := rfl

theorem histFreq_cons (r : ℚ) (c : ℕ) (t : List (ℚ × ℕ)) (q : ℚ) :
    histFreq ((r, c) :: t) q = if r = q then c else histFreq t q := by
  by_cases h : r = q <;> simp [histFreq, List.find?_cons, h]

theorem histFreq_histInsert (p : ℚ) (h : List (ℚ × ℕ)) (q : ℚ) :
    histFreq (histInsert p h) q =
      if q = p then histFreq h q + 1 else histFreq h q := by
  induction h with
  | nil =>
    by_cases hq : q = p
    · subst hq; simp [histInsert, histFreq_cons, histFreq_nil]
    · simp [histInsert, histFreq_cons, histFreq_nil, hq, Ne.symm hq]
  | cons f t ih =>
    obtain ⟨r, c⟩ := f
    by_cases hrp : r = p
    · subst hrp
      by_cases hq : r = q
      · subst hq; simp [histInsert, histFreq_cons]
      · simp [histInsert, histFreq_cons, hq, Ne.symm hq]
    · by_cases hq : r = q
      · subst hq
        simp [histInsert, hrp, histFreq_cons, Ne.symm hrp]
      · simp [histInsert, hrp, histFreq_cons, hq, ih]

theorem mem_keys_histInsert (p q : ℚ) (h : List (ℚ × ℕ)) :
    q ∈ (histInsert p h).map Prod.fst ↔ q = p ∨ q ∈ h.map Prod.fst := by
  induction h with
  | nil => simp [histInsert]
  | cons e t ih =>
    obtain ⟨r, c⟩ := e
    by_cases hrp : r = p
    · subst hrp
      simp [histInsert]
    · simp only [histInsert, if_neg hrp, List.map_cons, List.mem_cons, ih]
      tauto

theorem nodup_keys_histInsert (p : ℚ) (h : List (ℚ × ℕ))
    (hn : (h.map Prod.fst).Nodup) : ((histInsert p h).map Prod.fst).Nodup := by
  induction h with
  | nil => simp [histInsert]
  | cons e t ih =>
    obtain ⟨r, c⟩ := e
    simp only [List.map_cons, List.nodup_cons] at hn
    by_cases hrp : r = p
    · subst hrp; simp only [histInsert, if_pos rfl, List.map_cons]
      exact List.nodup_cons.mpr hn
    · simp only [histInsert, if_neg hrp, List.map_cons, List.nodup_cons]
      refine ⟨fun hmem => ?_, ih hn.2⟩
      rcases (mem_keys_histInsert p r t).mp hmem with h1 | h1
      · exact hrp h1
      · exact hn.1 h1

theorem snd_eq_histFreq (h : List (ℚ × ℕ)) (hn : (h.map Prod.fst).Nodup) :
    ∀ e ∈ h, e.2 = histFreq h e.1 := by
  induction h with
  | nil => simp
  | cons f t ih =>
    obtain ⟨r, c⟩ := f
    simp only [List.map_cons, List.nodup_cons] at hn
    intro e he
    rcases List.mem_cons.mp he with rfl | he
    · simp [histFreq_cons]
    · have hne : e.1 ≠ r := by
        intro hcontra
        exact hn.1 (hcontra ▸ List.mem_map_of_mem Prod.fst he)
      have hrec := ih hn.2 e he
      rw [histFreq_cons, if_neg (Ne.symm hne)]
      exact hrec

theorem histFreq_foldl (l : List ℚ) :
    ∀ (h : List (ℚ × ℕ)) (q : ℚ),
      histFreq (l.foldl (fun acc p => histInsert p acc) h) q =
        histFreq h q + l.count q := by
  induction l with
  | nil => simp
  | cons p ps ih =>
    intro h q
    rw [List.foldl_cons, ih (histInsert p h) q, histFreq_histInsert,
      List.count_cons]
    by_cases hq : q = p
    · simp [hq]
      omega
    · simp [hq, Ne.symm hq]

theorem mem_keys_foldl (l : List ℚ) :
    ∀ (h : List (ℚ × ℕ)) (q : ℚ),
      q ∈ ((l.foldl (fun acc p => histInsert p acc) h).map Prod.fst) ↔
        q ∈ h.map Prod.fst ∨ q ∈ l := by
  induction l with
  | nil => simp
  | cons p ps ih =>
    intro h q
    simp only [List.foldl_cons, ih, mem_keys_histInsert, List.mem_cons]
    tauto

theorem nodup_keys_foldl (l : List ℚ) :
    ∀ (h : List (ℚ × ℕ)), (h.map Prod.fst).Nodup →
      (((l.foldl (fun acc p => histInsert p acc) h)).map Prod.fst).Nodup := by
  induction l with
  | nil => exact fun h hn => hn
  | cons p ps ih =>
    intro h hn
    exact ih _ (nodup_keys_histInsert p h hn)

theorem histFreq_buildHist (l : List ℚ) (q : ℚ) :
    histFreq (buildHist l) q = l.count q := by
  simpa [histFreq] using histFreq_foldl l [] q

theorem mem_keys_buildHist (l : List ℚ) (q : ℚ) :
    q ∈ (buildHist l).map Prod.fst ↔ q ∈ l := by
  simpa using mem_keys_foldl l [] q

theorem nodup_keys_buildHist (l : List ℚ) :
    ((buildHist l).map Prod.fst).Nodup := by
  simpa using nodup_keys_foldl l [] (by simp)

theorem snd_eq_count_buildHist (l : List ℚ) :
    ∀ e ∈ buildHist l, e.2 = l.count e.1 := by
  intro e he
  rw [snd_eq_histFreq (buildHist l) (nodup_keys_buildHist l) e he,
    histFreq_buildHist]

theorem count_mem_buildHist (l : List ℚ) (q : ℚ) (hq : q ∈ l) :
    (q, l.count q) ∈ buildHist l := by
  obtain ⟨e, he, hfst⟩ :=
    List.mem_map.mp ((mem_keys_buildHist l q).mpr hq)
  have hsnd := snd_eq_count_buildHist l e he
  have : e = (q, l.count q) := by
    obtain ⟨a, b⟩ := e
    simp only at hfst hsnd
    subst hfst; subst hsnd; rfl
  exact this ▸ he

theorem mem_insertByFreq (e a : ℚ × ℕ) (l : List (ℚ × ℕ)) :
    a ∈ insertByFreq e l ↔ a = e ∨ a ∈ l := by
  induction l with
  | nil => simp [insertByFreq]
  | cons f fs ih =>
    by_cases hc : e.2 < f.2
    · simp only [insertByFreq, if_pos hc, List.mem_cons, ih]
      tauto
    · simp only [insertByFreq, if_neg hc, List.mem_cons]

theorem pairwise_insertByFreq (e : ℚ × ℕ) (l : List (ℚ × ℕ))
    (hp : l.Pairwise (fun a b => b.2 ≤ a.2)) :
    (insertByFreq e l).Pairwise (fun a b => b.2 ≤ a.2) := by
  induction l with
  | nil => simp [insertByFreq]
  | cons f fs ih =>
    rcases List.pairwise_cons.mp hp with ⟨hf, hfs⟩
    by_cases hc : e.2 < f.2
    · simp only [insertByFreq, if_pos hc]
      refine List.pairwise_cons.mpr ⟨fun a ha => ?_, ih hfs⟩
      rcases (mem_insertByFreq e a fs).mp ha with rfl | ha
      · exact le_of_lt hc
      · exact hf a ha
    · simp only [insertByFreq, if_neg hc]
      push_neg at hc
      refine List.pairwise_cons.mpr ⟨fun a ha => ?_, hp⟩
      rcases List.mem_cons.mp ha with rfl | ha
      · exact hc
      · exact le_trans (hf a ha) hc

theorem mem_sortByFreqDesc (a : ℚ × ℕ) (l : List (ℚ × ℕ)) :
    a ∈ sortByFreqDesc l ↔ a ∈ l := by
  induction l with
  | nil => simp [sortByFreqDesc]
  | cons e es ih =>
    simp only [sortByFreqDesc, mem_insertByFreq, ih, List.mem_cons]

theorem pairwise_sortByFreqDesc (l : List (ℚ × ℕ)) :
    (sortByFreqDesc l).Pairwise (fun a b => b.2 ≤ a.2) := by
  induction l with
  | nil => simp [sortByFreqDesc]
  | cons e es ih => exact pairwise_insertByFreq e _ ih

theorem head_max_sortByFreqDesc (l : List (ℚ × ℕ)) (e : ℚ × ℕ)
    (rest : List (ℚ × ℕ)) (hsort : sortByFreqDesc l = e :: rest) :
    ∀ a ∈ l, a.2 ≤ e.2 := by
  intro a ha
  have hmem : a ∈ e :: rest := hsort ▸ (mem_sortByFreqDesc a l).mpr ha
  rcases List.mem_cons.mp hmem with rfl | hmem
  · exact le_refl _
  · have hp := pairwise_sortByFreqDesc l
    rw [hsort] at hp
    exact (List.pairwise_cons.mp hp).1 a hmem

theorem sortByFreqDesc_ne_nil (l : List (ℚ × ℕ)) (hl : l ≠ []) :
    sortByFreqDesc l ≠ [] := by
  obtain ⟨e, es, rfl⟩ := List.exists_cons_of_ne_nil hl
  intro hcontra
  have : e ∈ sortByFreqDesc (e :: es) :=
    (mem_sortByFreqDesc e _).mpr (List.mem_cons_self e es)
  rw [hcontra] at this
  exact List.not_mem_nil e this

theorem buildHist_ne_nil (l : List ℚ) (hl : l ≠ []) : buildHist l ≠ [] := by
  obtain ⟨p, ps, rfl⟩ := List.exists_cons_of_ne_nil hl
  intro hcontra
  have : p ∈ (buildHist (p :: ps)).map Prod.fst :=
    (mem_keys_buildHist _ p).mpr (List.mem_cons_self p ps)
  rw [hcontra] at this
  exact List.not_mem_nil p this

theorem vote_invalid_rejected (t : Task) (e : String) (p : ℚ)
    (h : ¬ validPoints p) : vote t e p = .error .invalidPoints := by
  simp [vote, h]

theorem vote_inactive_rejected (t : Task) (e : String) (p : ℚ)
    (hval : validPoints p) (hact : t.active = false) :
    vote t e p = .error .taskNotVotable := by
  simp [vote, hval, hact]

theorem vote_nonmember_rejected (t : Task) (e : String) (p : ℚ)
    (hval : validPoints p) (hact : t.active = true) (hmem : e ∉ t.squad) :
    vote t e p = .error .notSquadMember := by
  simp [vote, hval, hact, hmem]

theorem not_all_ne_of_mem (t : Task) (e : String) (hmem : e ∈ t.squad) :
    ¬ ∀ m ∈ t.squad, m ≠ e :=
  fun hall => hall e hmem rfl

theorem vote_dup_rejected (t : Task) (e : String) (p : ℚ)
    (hval : validPoints p) (hact : t.active = true) (hmem : e ∈ t.squad)
    (hdup : ∃ v ∈ t.votes, v.round = t.currentRound ∧ v.email = e) :
    vote t e p = .error .duplicateVote := by
  simp [vote, hval, hact, not_all_ne_of_mem t e hmem, hdup]

theorem vote_passes (t : Task) (e : String) (p : ℚ)
    (hval : validPoints p) (hact : t.active = true) (hmem : e ∈ t.squad)
    (hnodup : ∀ v ∈ t.votes, ¬ (v.round = t.currentRound ∧ v.email = e)) :
    ∃ u, vote t e p = .ok u ∧
      u.votes = t.votes ++ [⟨e, t.currentRound, p⟩] := by
  have hne : ¬ ∃ v ∈ t.votes, v.round = t.currentRound ∧ v.email = e :=
    fun ⟨v, hv, hd⟩ => hnodup v hv hd
  by_cases hlen : (t.votes.length : ℤ) ≠ (t.squad.length : ℤ) - 1
  · refine ⟨registerVoteAndUpdate t ⟨e, t.currentRound, p⟩ none true, ?_, ?_⟩
    · simp [vote, hval, hact, not_all_ne_of_mem t e hmem, hne, hlen]
    · simp [registerVoteAndUpdate]
  · refine ⟨registerVoteAndUpdate t ⟨e, t.currentRound, p⟩
      (calcFinalPoints (((t.votes.filter (fun v : Vote =>
          decide (v.round = t.currentRound))) ++
        [Vote.mk e t.currentRound p]).map Vote.points)
        t.currentRound t.maxRounds t.percentual) true, ?_, ?_⟩
    · simp [vote, hval, hact, not_all_ne_of_mem t e hmem, hne, hlen]
    · simp [registerVoteAndUpdate]

theorem vote_ok_shape (t : Task) (e : String) (p : ℚ) (u : Task)
    (hok : vote t e p = .ok u) :
    u.votes = t.votes ++ [⟨e, t.currentRound, p⟩] ∧
      ∀ v ∈ t.votes, ¬ (v.round = t.currentRound ∧ v.email = e) := by
  by_cases hval : validPoints p
  · by_cases hact : t.active = true
    · by_cases hmem : e ∈ t.squad
      · by_cases hnodup : ∀ v ∈ t.votes,
            ¬ (v.round = t.currentRound ∧ v.email = e)
        · obtain ⟨u2, hok2, hv2⟩ := vote_passes t e p hval hact hmem hnodup
          rw [hok] at hok2
          exact ⟨(Except.ok.injEq u u2).mp hok2 ▸ hv2, hnodup⟩
        · push_neg at hnodup
          obtain ⟨v, hv, hvd⟩ := hnodup
          rw [vote_dup_rejected t e p hval hact hmem ⟨v, hv, hvd⟩] at hok
          cases hok
      · rw [vote_nonmember_rejected t e p hval hact hmem] at hok
        cases hok
    · rw [vote_inactive_rejected t e p hval
        (Bool.not_eq_true t.active ▸ hact)] at hok
      cases hok
  · rw [vote_invalid_rejected t e p hval] at hok
    cases hok

/-- C2: the condition `orderedHist.some(([_, freq]) => minFreq)` only tests
the truthiness of `minFreq` once per entry, so for any non-empty vote list
and positive threshold `calcFinalPoints` takes the consensus branch: it
returns a vote value of maximal frequency and never returns the `undefined`
(advance) outcome, whatever the actual frequencies, rounds, or limits. -/
theorem calcFinalPoints_consensus_always_fires (votes : List ℚ)
    (currentRound maxRounds : ℤ) (minPercentual : ℚ)
    (hne : votes ≠ []) (hpos : 0 < minPercentual) :
    ∃ p, calcFinalPoints votes currentRound maxRounds minPercentual = some p ∧
      p ∈ votes ∧ ∀ q, votes.count q ≤ votes.count p := by
  have hlen : (0 : ℚ) < (votes.length : ℚ) := by
    exact_mod_cast List.length_pos.mpr hne
  have hmf : ((votes.length : ℚ) * minPercentual) ≠ 0 :=
    ne_of_gt (mul_pos hlen hpos)
  have hsortne : sortByFreqDesc (buildHist votes) ≠ [] :=
    sortByFreqDesc_ne_nil _ (buildHist_ne_nil votes hne)
  obtain ⟨e, rest, hsort⟩ := List.exists_cons_of_ne_nil hsortne
  have he : e ∈ sortByFreqDesc (buildHist votes) := by
    rw [hsort]; exact List.mem_cons_self e rest
  have heh : e ∈ buildHist votes := (mem_sortByFreqDesc e _).mp he
  have he2 : e.2 = votes.count e.1 := snd_eq_count_buildHist votes e heh
  have he1 : e.1 ∈ votes :=
    (mem_keys_buildHist votes e.1).mp (List.mem_map_of_mem Prod.fst heh)
  refine ⟨e.1, ?_, he1, ?_⟩
  · simp only [calcFinalPoints]
    rw [hsort]
    simp [hmf]
  · intro q
    by_cases hqv : q ∈ votes
    · have hq := count_mem_buildHist votes q hqv
      have hle := head_max_sortByFreqDesc (buildHist votes) e rest hsort
        (q, votes.count q) hq
      simpa [he2] using hle
    · simp [List.count_eq_zero.mpr hqv]

/-- Witness for C2 at votes `[1, 2]`, threshold `1/2`, rounds `1` of `3`. -/
theorem calcFinalPoints_consensus_always_fires_witness :
    ∃ p, calcFinalPoints [1, 2] 1 3 (1/2) = some p ∧
      p ∈ ([1, 2] : List ℚ) ∧
      ∀ q, List.count q ([1, 2] : List ℚ) ≤ List.count p ([1, 2] : List ℚ) :=
  calcFinalPoints_consensus_always_fires [1, 2] 1 3 (1/2)
    (by decide) (by norm_num)

/-- C1: at votes `{3, 5, 8}` with threshold `3/5` in round 1 of 2, no value
reaches `requiredCount = ceil(3/5 * 3) = 2`, so the claimed consensus rule
would return Advance; the code nevertheless takes the consensus branch and
returns 3 — the first-inserted entry, not the highest point value. -/
theorem calcFinalPoints_fires_without_consensus :
    calcFinalPoints [3, 5, 8] 1 2 (3/5) = some 3 ∧
    (∀ q : ℚ, List.count q ([3, 5, 8] : List ℚ) ≤ 1) ∧
    ⌈(3/5 : ℚ) * 3⌉ = 2 := by
  refine ⟨?_, ?_, ?_⟩
  · simp [calcFinalPoints, buildHist, histInsert, sortByFreqDesc, insertByFreq]
  · have hnd : ([3, 5, 8] : List ℚ).Nodup := by norm_num
    exact fun q => List.nodup_iff_count_le_one.mp hnd q
  · rw [Int.ceil_eq_iff]
    norm_num

/-- C4: at round-1 votes `{2, 3, 5, 8}` with `maxRounds = 1` and threshold
`3/5`, the claim expects the round-limit rule to finalize with the highest
point value 8; the always-true consensus check of the code fires first; its
stable sort keeps insertion order among the all-equal counts, so it returns
2, the first vote value. -/
theorem calcFinalPoints_round_limit_shadowed :
    calcFinalPoints [2, 3, 5, 8] 1 1 (3/5) = some 2 ∧
    (∀ q : ℚ, List.count q ([2, 3, 5, 8] : List ℚ) ≤ 1) ∧
    (2 : ℚ) ≠ 8 := by
  refine ⟨?_, ?_, by norm_num⟩
  · simp [calcFinalPoints, buildHist, histInsert, sortByFreqDesc, insertByFreq]
  · have hnd : ([2, 3, 5, 8] : List ℚ).Nodup := by norm_num
    exact fun q => List.nodup_iff_count_le_one.mp hnd q

/-- C3 (code-bug exhibit): the completion test compares the count of ALL
recorded votes — including earlier rounds — with `squadSize - 1`.  From a
fresh two-member task, the vote of `a` advances to round 2; the lone
round-2 vote of `b` then makes the stale total reach the squad size, so the code runs the
consensus evaluation and finalizes although only 1 of 2 members voted in
the round it evaluated. -/
theorem vote_round_completion_counts_stale_votes :
    vote twoMemberTask "a" 3 = .ok twoMemberAfterA ∧
    vote twoMemberAfterA "b" 5 = .ok twoMemberAfterB ∧
    twoMemberAfterB.finished = true ∧
    (twoMemberAfterB.votes.filter (fun v =>
      decide (v.round = twoMemberAfterA.currentRound))).length = 1 ∧
    twoMemberAfterA.squad.length = 2 := by
  refine ⟨?_, ?_, rfl, ?_, rfl⟩
  · simp [vote, validPoints, registerVoteAndUpdate, twoMemberTask,
      twoMemberAfterA]
  · simp [vote, validPoints, registerVoteAndUpdate, calcFinalPoints,
      buildHist, histInsert, sortByFreqDesc, insertByFreq,
      twoMemberTask, twoMemberAfterA, twoMemberAfterB]
  · simp [twoMemberTask, twoMemberAfterA, twoMemberAfterB]

/-- C5 counterexample: a task with `finished = true` but `active = true` is
not rejected — the vote is accepted and recorded, because the code only
ever tests the `active` flag. -/
theorem vote_finished_active_accepted :
    finishedActiveTask.finished = true ∧
    finishedActiveTask.active = true ∧
    vote finishedActiveTask "a" 1 = .ok finishedActiveAfterVote := by
  refine ⟨rfl, rfl, ?_⟩
  simp [vote, validPoints, registerVoteAndUpdate, finishedActiveTask,
    finishedActiveAfterVote]

/-- C5 (amended): every vote with valid points on a task whose `active`
flag is false is rejected as `TaskNotVotable` with no state change; the
code never reads `finished`, so only `active = false` — the state that
finalization produces — causes the rejection. -/
theorem vote_inactive_task_rejected (t : Task) (e : String) (p : ℚ)
    (hval : validPoints p) (hact : t.active = false) :
    vote t e p = .error .taskNotVotable :=
  vote_inactive_rejected t e p hval hact

/-- Witness for the amended C5 on a concrete inactive task. -/
theorem vote_inactive_task_rejected_witness :
    vote soloInactiveTask "w" 1 = .error .taskNotVotable :=
  vote_inactive_task_rejected soloInactiveTask "w" 1 (by decide) rfl

/-- C6: a second submission by a voter who already has a vote in the
current round is rejected as a duplicate (leaving every recorded vote in
place), and any accepted vote preserves the at-most-one-vote-per
(voter, round) invariant. -/
theorem vote_at_most_one_per_voter_round (t : Task) (e : String) (p : ℚ) :
    ((∃ v ∈ t.votes, v.round = t.currentRound ∧ v.email = e) →
      validPoints p → t.active = true → e ∈ t.squad →
      vote t e p = .error .duplicateVote) ∧
    ∀ u, vote t e p = .ok u → votesConsistent t → votesConsistent u := by
  constructor
  · intro hdup hval hact hmem
    exact vote_dup_rejected t e p hval hact hmem hdup
  · intro u hok hcons
    obtain ⟨hvotes, hnodup⟩ := vote_ok_shape t e p u hok
    unfold votesConsistent at hcons ⊢
    rw [hvotes, List.pairwise_append]
    refine ⟨hcons, by simp, ?_⟩
    intro a ha b hb
    rcases List.mem_singleton.mp hb with rfl
    rintro ⟨hemail, hround⟩
    exact hnodup a ha ⟨hround, hemail⟩

/-- Witness for C6: a duplicate submission is rejected, and the state
reached by a first accepted vote still satisfies the invariant. -/
theorem vote_at_most_one_per_voter_round_witness :
    vote soloDupTask "w" 4 = .error .duplicateVote ∧
    votesConsistent twoMemberAfterA := by
  constructor
  · exact (vote_at_most_one_per_voter_round soloDupTask "w" 4).1
      (by decide) (by decide) rfl (by decide)
  · exact (vote_at_most_one_per_voter_round twoMemberTask "a" 3).2
      twoMemberAfterA
      (by simp [vote, validPoints, registerVoteAndUpdate, twoMemberTask,
        twoMemberAfterA])
      (by simp [votesConsistent, twoMemberTask])

/-- C7 counterexample: the claimed check 2 would reject this finished,
active task as `TaskNotVotable`; the code instead accepts the vote,
completes the one-member round and finalizes the task. -/
theorem vote_validation_ignores_finished :
    finishedActiveSolo.finished = true ∧
    finishedActiveSolo.active = true ∧
    vote finishedActiveSolo "x" 2 = .ok finishedActiveSoloRes := by
  refine ⟨rfl, rfl, ?_⟩
  simp [vote, validPoints, registerVoteAndUpdate, calcFinalPoints,
    buildHist, histInsert, sortByFreqDesc, insertByFreq,
    finishedActiveSolo, finishedActiveSoloRes]

/-- C7 (amended): the validation chain applies four checks in this order,
each with its distinct reason, the first failing check deciding the
outcome: (1) points an integer ≥ 0 else `InvalidPoints`; (2) `task.active`
true — `finished` is never examined — else `TaskNotVotable`; (3) squad
membership else `NotSquadMember`; (4) no prior vote by the voter in the
current round else `DuplicateVote`; all checks passing, the vote is
accepted. -/
theorem vote_validation_order (t : Task) (e : String) (p : ℚ) :
    (¬ validPoints p → vote t e p = .error .invalidPoints) ∧
    (validPoints p → t.active = false →
      vote t e p = .error .taskNotVotable) ∧
    (validPoints p → t.active = true → e ∉ t.squad →
      vote t e p = .error .notSquadMember) ∧
    (validPoints p → t.active = true → e ∈ t.squad →
      (∃ v ∈ t.votes, v.round = t.currentRound ∧ v.email = e) →
      vote t e p = .error .duplicateVote) ∧
    (validPoints p → t.active = true → e ∈ t.squad →
      (∀ v ∈ t.votes, ¬ (v.round = t.currentRound ∧ v.email = e)) →
      ∃ u, vote t e p = .ok u) :=
  ⟨vote_invalid_rejected t e p,
   vote_inactive_rejected t e p,
   vote_nonmember_rejected t e p,
   vote_dup_rejected t e p,
   fun hval hact hmem hnodup =>
     (vote_passes t e p hval hact hmem hnodup).imp (fun _ h => h.1)⟩

/-- Witness for the amended C7: each of the five branches at a concrete
input. -/
theorem vote_validation_order_witness :
    vote soloTask "w" (-1) = .error .invalidPoints ∧
    vote soloInactiveTask "w" 2 = .error .taskNotVotable ∧
    vote soloTask "z" 2 = .error .notSquadMember ∧
    vote soloDupTask "w" 2 = .error .duplicateVote ∧
    ∃ u, vote soloTask "w" 2 = .ok u := by
  refine ⟨?_, ?_, ?_, ?_, ?_⟩
  · exact (vote_validation_order soloTask "w" (-1)).1 (by decide)
  · exact (vote_validation_order soloInactiveTask "w" 2).2.1
      (by decide) rfl
  · exact (vote_validation_order soloTask "z" 2).2.2.1
      (by decide) rfl (by decide)
  · exact (vote_validation_order soloDupTask "w" 2).2.2.2.1
      (by decide) rfl (by decide) (by decide)
  · exact (vote_validation_order soloTask "w" 2).2.2.2.2
      (by decide) rfl (by decide) (by decide)

/-- C8 (code-bug exhibit): `registerVoteAndUpdate` is called with
`nextRound` left at its default `true` even when finalizing, so the lone
vote on a one-member task with `maxRounds = 1` finalizes the task AND
increments `currentRound` to 2, exceeding `maxRounds`. -/
theorem vote_finalize_increments_round_past_max :
    vote soloMaxOneTask "a" 5 = .ok soloMaxOneRes ∧
    soloMaxOneRes.finished = true ∧
    soloMaxOneRes.currentRound = 2 ∧
    soloMaxOneRes.maxRounds = 1 := by
  refine ⟨?_, rfl, rfl, rfl⟩
  simp [vote, validPoints, registerVoteAndUpdate, calcFinalPoints,
    buildHist, histInsert, sortByFreqDesc, insertByFreq,
    soloMaxOneTask, soloMaxOneRes]

/-- C9: a computed final value of 0 is falsy, so
`points ? {points, active: false, finished: true} : {}` contributes
nothing: the update equals the plain round-advance update, leaving
`points`, `finished` and `active` untouched while `currentRound` is
incremented; concretely, an all-zero complete round advances instead of
finalizing. -/
theorem registerVote_zero_points_not_finalizing (t : Task) (v : Vote) :
    registerVoteAndUpdate t v (some 0) true =
      registerVoteAndUpdate t v none true ∧
    (registerVoteAndUpdate t v (some 0) true).finished = t.finished ∧
    (registerVoteAndUpdate t v (some 0) true).active = t.active ∧
    (registerVoteAndUpdate t v (some 0) true).points = t.points ∧
    (registerVoteAndUpdate t v (some 0) true).currentRound =
      t.currentRound + 1 ∧
    calcFinalPoints [0, 0] 1 2 (3/5) = some 0 ∧
    vote zeroRoundTask "b" 0 = .ok zeroRoundRes ∧
    zeroRoundRes.finished = false := by
  refine ⟨?_, ?_, ?_, ?_, ?_, ?_, ?_, rfl⟩
  · simp [registerVoteAndUpdate]
  · simp [registerVoteAndUpdate]
  · simp [registerVoteAndUpdate]
  · simp [registerVoteAndUpdate]
  · simp [registerVoteAndUpdate]
  · simp [calcFinalPoints, buildHist, histInsert, sortByFreqDesc,
      insertByFreq]
  · simp [vote, validPoints, registerVoteAndUpdate, calcFinalPoints,
      buildHist, histInsert, sortByFreqDesc, insertByFreq,
      zeroRoundTask, zeroRoundRes]

theorem squadEntry_squad (db : List LoadedSquadsDb) (s : String)
    (entry : LoadedSquad) (h : squadEntry db s = some entry) :
    entry.squad = s := by
  unfold squadEntry at h
  rcases hfil : db.filter (fun r => decide (r.squad = s)) with _ | ⟨r0, rs⟩
  · rw [hfil] at h; cases h
  · rw [hfil] at h
    have hr0 : r0.squad = s := by
      have hmem : r0 ∈ db.filter (fun r => decide (r.squad = s)) := by
        rw [hfil]; exact List.mem_cons_self r0 rs
      simpa using (List.mem_filter.mp hmem).2
    cases h
    exact hr0

theorem squadEntry_members_length (db : List LoadedSquadsDb) (s : String)
    (entry : LoadedSquad) (h : squadEntry db s = some entry) :
    entry.members.length =
      (db.filter (fun r => decide (r.squad = s))).length := by
  unfold squadEntry at h
  rcases hfil : db.filter (fun r => decide (r.squad = s)) with _ | ⟨r0, rs⟩
  · rw [hfil] at h; cases h
  · rw [hfil] at h
    cases h
    rw [hfil]
    simp

theorem squadEntry_isSome (db : List LoadedSquadsDb) (s : String)
    (hs : s ∈ db.map LoadedSquadsDb.squad) :
    ∃ entry, squadEntry db s = some entry := by
  obtain ⟨r, hrdb, hrs⟩ := List.mem_map.mp hs
  have hrfil : r ∈ db.filter (fun x => decide (x.squad = s)) :=
    List.mem_filter.mpr ⟨hrdb, by simp [hrs]⟩
  unfold squadEntry
  rcases hfil : db.filter (fun x => decide (x.squad = s)) with _ | ⟨r0, rs⟩
  · rw [hfil] at hrfil; cases hrfil
  · rw [hfil]
    exact ⟨_, rfl⟩

theorem firstOccurrences_subset (l : List String) :
    ∀ (seen : List String), ∀ a ∈ firstOccurrences seen l, a ∈ l := by
  induction l with
  | nil => simp [firstOccurrences]
  | cons s rest ih =>
    intro seen a ha
    by_cases hseen : s ∈ seen
    · simp only [firstOccurrences, if_pos hseen] at ha
      exact List.mem_cons_of_mem s (ih seen a ha)
    · simp only [firstOccurrences, if_neg hseen] at ha
      rcases List.mem_cons.mp ha with rfl | ha
      · exact List.mem_cons_self a rest
      · exact List.mem_cons_of_mem s (ih (s :: seen) a ha)

theorem firstOccurrences_not_seen (l : List String) :
    ∀ (seen : List String), ∀ a ∈ firstOccurrences seen l, a ∉ seen := by
  induction l with
  | nil => simp [firstOccurrences]
  | cons s rest ih =>
    intro seen a ha
    by_cases hseen : s ∈ seen
    · simp only [firstOccurrences, if_pos hseen] at ha
      exact ih seen a ha
    · simp only [firstOccurrences, if_neg hseen] at ha
      rcases List.mem_cons.mp ha with rfl | ha
      · exact hseen
      · exact fun hc =>
          ih (s :: seen) a ha (List.mem_cons_of_mem s hc)

theorem firstOccurrences_nodup (l : List String) :
    ∀ (seen : List String), (firstOccurrences seen l).Nodup := by
  induction l with
  | nil => simp [firstOccurrences]
  | cons s rest ih =>
    intro seen
    by_cases hseen : s ∈ seen
    · simp only [firstOccurrences, if_pos hseen]
      exact ih seen
    · simp only [firstOccurrences, if_neg hseen]
      refine List.nodup_cons.mpr ⟨fun hc => ?_, ih (s :: seen)⟩
      exact firstOccurrences_not_seen rest (s :: seen) s hc
        (List.mem_cons_self s seen)

theorem fromSquadDbGo_spec (db : List LoadedSquadsDb) :
    ∀ (names : List String) (acc : List LoadedSquad) (seen : List String),
      (∀ s, (∃ r ∈ acc, r.squad = s) ↔ s ∈ seen) →
      (∀ s ∈ names, s ∈ db.map LoadedSquadsDb.squad) →
      fromSquadDbGo db names acc =
        acc ++ (firstOccurrences seen names).filterMap (squadEntry db) := by
  intro names
  induction names with
  | nil =>
    intro acc seen _ _
    simp [fromSquadDbGo, firstOccurrences]
  | cons s rest ih =>
    intro acc seen hinv hsub
    by_cases hseen : s ∈ seen
    · have hany : (acc.any fun r => decide (r.squad = s)) = true := by
        obtain ⟨r, hr, hrs⟩ := (hinv s).mpr hseen
        exact List.any_eq_true.mpr ⟨r, hr, by simp [hrs]⟩
      simp only [fromSquadDbGo, hany, if_true]
      rw [ih acc seen hinv (fun x hx => hsub x (List.mem_cons_of_mem s hx))]
      simp [firstOccurrences, hseen]
    · have hany : (acc.any fun r => decide (r.squad = s)) = false := by
        rw [List.any_eq_false]
        intro r hr
        simp only [decide_eq_true_eq]
        exact fun hrs => hseen ((hinv s).mp ⟨r, hr, hrs⟩)
      have hsmem : s ∈ db.map LoadedSquadsDb.squad :=
        hsub s (List.mem_cons_self s rest)
      obtain ⟨r, hrdb, hrs⟩ := List.mem_map.mp hsmem
      have hrfil : r ∈ db.filter (fun x => decide (x.squad = s)) :=
        List.mem_filter.mpr ⟨hrdb, by simp [hrs]⟩
      rcases hfil : db.filter (fun x => decide (x.squad = s))
        with _ | ⟨r0, rs⟩
      · rw [hfil] at hrfil; cases hrfil
      · have hr0 : r0.squad = s := by
          have hmem : r0 ∈ db.filter (fun x => decide (x.squad = s)) := by
            rw [hfil]; exact List.mem_cons_self r0 rs
          simpa using (List.mem_filter.mp hmem).2
        have hentry : squadEntry db s = some
            { id := r0.squadId, squad := r0.squad,
              members := (r0 :: rs).map (fun x => ⟨x.userId, x.user⟩),
              currentMaxRounds := r0.currentMaxRounds,
              currentPercentual := r0.currentPercentual,
              updatedAt := r0.updatedAt } := by
          unfold squadEntry
          rw [hfil]
        have hstep : fromSquadDbGo db (s :: rest) acc =
            fromSquadDbGo db rest (acc ++
              [{ id := r0.squadId, squad := r0.squad,
                 members := (r0 :: rs).map (fun x => ⟨x.userId, x.user⟩),
                 currentMaxRounds := r0.currentMaxRounds,
                 currentPercentual := r0.currentPercentual,
                 updatedAt := r0.updatedAt }]) := by
          simp only [fromSquadDbGo, hany, Bool.false_eq_true, if_false]
          rw [hfil]
        rw [hstep, ih _ (s :: seen) ?_
          (fun x hx => hsub x (List.mem_cons_of_mem s hx))]
        · simp only [firstOccurrences, if_neg hseen, List.filterMap_cons,
            hentry, List.append_assoc, List.singleton_append]
        · intro x
          constructor
          · rintro ⟨q, hq, hqs⟩
            rcases List.mem_append.mp hq with hq | hq
            · exact List.mem_cons_of_mem s ((hinv x).mp ⟨q, hq, hqs⟩)
            · rcases List.mem_singleton.mp hq with rfl
              simp only at hqs
              rw [← hqs, hr0]
              exact List.mem_cons_self s seen
          · intro hx
            rcases List.mem_cons.mp hx with rfl | hx
            · refine ⟨_, List.mem_append_right _ (List.mem_singleton.mpr rfl),
                ?_⟩
              simpa using hr0
            · obtain ⟨q, hq, hqs⟩ := (hinv x).mpr hx
              exact ⟨q, List.mem_append_left _ hq, hqs⟩

theorem map_squad_filterMap (db : List LoadedSquadsDb) :
    ∀ (l : List String), (∀ s ∈ l, s ∈ db.map LoadedSquadsDb.squad) →
      ((l.filterMap (squadEntry db)).map LoadedSquad.squad) = l := by
  intro l
  induction l with
  | nil => simp
  | cons s rest ih =>
    intro hsub
    obtain ⟨entry, hentry⟩ :=
      squadEntry_isSome db s (hsub s (List.mem_cons_self s rest))
    rw [List.filterMap_cons, hentry, List.map_cons,
      squadEntry_squad db s entry hentry,
      ih (fun x hx => hsub x (List.mem_cons_of_mem s hx))]

/-- C10: `fromSquadDb` produces exactly the per-squad aggregation: one
entry per distinct squad name in order of first appearance (so the output
names are duplicate-free), where each entry is the `squadEntry` built from
the first row bearing the name (for `id`, `currentMaxRounds`,
`currentPercentual`, `updatedAt`) with one member per row bearing the
name. -/
theorem fromSquadDb_groups_by_first_appearance (db : List LoadedSquadsDb) :
    fromSquadDb db =
      (firstOccurrences [] (db.map LoadedSquadsDb.squad)).filterMap
        (squadEntry db) ∧
    (fromSquadDb db).map LoadedSquad.squad =
      firstOccurrences [] (db.map LoadedSquadsDb.squad) ∧
    ((fromSquadDb db).map LoadedSquad.squad).Nodup ∧
    ∀ entry ∈ fromSquadDb db, squadEntry db entry.squad = some entry ∧
      entry.members.length =
        (db.filter (fun r => decide (r.squad = entry.squad))).length := by
  have hmain : fromSquadDb db =
      (firstOccurrences [] (db.map LoadedSquadsDb.squad)).filterMap
        (squadEntry db) := by
    have := fromSquadDbGo_spec db (db.map LoadedSquadsDb.squad) [] []
      (by simp) (fun s hs => hs)
    simpa [fromSquadDb] using this
  have hmap : (fromSquadDb db).map LoadedSquad.squad =
      firstOccurrences [] (db.map LoadedSquadsDb.squad) := by
    rw [hmain]
    exact map_squad_filterMap db _
      (fun s hs => firstOccurrences_subset _ [] s hs)
  refine ⟨hmain, hmap, ?_, ?_⟩
  · rw [hmap]
    exact firstOccurrences_nodup _ []
  · intro entry hentry
    rw [hmain] at hentry
    obtain ⟨s, _, hsome⟩ := List.mem_filterMap.mp hentry
    have hsq := squadEntry_squad db s entry hsome
    subst hsq
    exact ⟨hsome, squadEntry_members_length db entry.squad entry hsome⟩

/-- Witness for C10 on `sampleDb`: the entry for the squad appearing first
is rebuilt from its two rows. -/
theorem fromSquadDb_groups_by_first_appearance_witness :
    squadEntry sampleDb sampleS1.squad = some sampleS1 ∧
    sampleS1.members.length = (sampleDb.filter (fun r =>
      decide (r.squad = sampleS1.squad))).length :=
  (fromSquadDb_groups_by_first_appearance sampleDb).2.2.2 sampleS1
    (by decide)

end Briefly
